import Mathlib

/-!
Shallow embedding of `src/package.py` (a Debian Contents-file statistics CLI)
and verification of the specification claims about it.

Strings from the Python program are modelled as `List Char`; the Python
whitespace-sensitive operations `str.strip()`, `str.rsplit(None, 1)` and
`str.split(',')` are embedded below, restricted to the ASCII whitespace
characters.  The package-to-count dictionary (`defaultdict(int)`) is
modelled as an insertion-ordered association list, matching CPython dict
semantics.
-/

/-- The ASCII whitespace characters recognised by Python's `str.strip()` /
`str.split(None)` (space, tab, newline, carriage return, vertical tab,
form feed).  The model restricts Python's Unicode whitespace to ASCII. -/
def isSpace (c : Char) : Bool :=
  c = ' ' || c = '\t' || c = '\n' || c = '\r' || c = Char.ofNat 11 || c = Char.ofNat 12

/-- Python `s.strip()`: remove leading and trailing whitespace
(`line.strip()` on line 99 of `package.py`). -/
def pyStrip (s : List Char) : List Char :=
  ((s.dropWhile isSpace).reverse.dropWhile isSpace).reverse

/-- Python `s.rsplit(None, 1)`: split on the last maximal run of whitespace,
at most one split, never producing empty parts (line 99 of `package.py`).
Returns `[]` for an all-whitespace string, `[token]` when the string has a
single whitespace-free token, and `[front, lastToken]` otherwise. -/
def rsplitWs1 (s : List Char) : List (List Char) :=
  let r := s.reverse.dropWhile isSpace
  if r.isEmpty then []
  else
    let tok := (r.takeWhile fun c => !isSpace c).reverse
    let rest := (r.dropWhile fun c => !isSpace c).dropWhile isSpace
    if rest.isEmpty then [tok] else [rest.reverse, tok]

/-- Python `s.split(',')` (line 103 of `package.py`): split on every comma,
keeping empty chunks; a string with `n` commas yields `n + 1` chunks. -/
def splitComma (s : List Char) : List (List Char) :=
  match s with
  | [] => [[]]
  | c :: rest =>
      if c = ',' then [] :: splitComma rest
      else
        match splitComma rest with
        | [] => [[c]]
        | t :: ts => (c :: t) :: ts

/-- The `defaultdict(int)` of `parse_contents_file`, modelled as an
insertion-ordered association list (CPython dicts preserve insertion
order); keys are unique. -/
abbrev OwnerMap := List (List Char × Nat)

/-- `package_file_count[package] += 1` on a `defaultdict(int)` (line 104 of
`package.py`): increment the count of an existing key in place, or append
the key with count 1. -/
def bump (m : OwnerMap) (k : List Char) : OwnerMap :=
  match m with
  | [] => [(k, 1)]
  | (k', v) :: rest => if k' = k then (k', v + 1) :: rest else (k', v) :: bump rest k

/-- Dictionary lookup with the `defaultdict(int)` default of 0. -/
def lookupCount (m : OwnerMap) (k : List Char) : Nat :=
  match m with
  | [] => 0
  | (k', v) :: rest => if k' = k then v else lookupCount rest k

/-- Number of occurrences of `q` in a list of package names. -/
def countOcc (q : List Char) (ks : List (List Char)) : Nat :=
  match ks with
  | [] => 0
  | k :: ks => (if k = q then 1 else 0) + countOcc q ks

/-- The body of the `for line in f` loop of `parse_contents_file`
(lines 99-104 of `package.py`): strip, right-split once on whitespace,
skip unless exactly two parts, then bump every comma-separated owner. -/
def process_line (m : OwnerMap) (line : List Char) : OwnerMap :=
  match rsplitWs1 (pyStrip line) with
  | [_, packages] => (splitComma packages).foldl bump m
  | _ => m

/-- The whole `for line in f` loop of `parse_contents_file`, starting from
a given accumulated mapping. -/
def process_lines (m : OwnerMap) (ls : List (List Char)) : OwnerMap :=
  ls.foldl process_line m

/-- Modelled from the spec: the gzip decompression collaborator
(`gzip.open(..., 'rt', encoding='utf-8', errors='ignore')`, a Python
standard-library external to `src/`).  Iterating the stream yields some
decoded lines and then either reaches end of stream (`readOk = true`) or
raises `OSError` (`readOk = false`, the case of corrupt gzip framing or an
I/O failure mid-stream). -/
structure GzStream where
  lines : List (List Char)
  readOk : Bool

/-- `parse_contents_file` (lines 84-109 of `package.py`): fold the loop
body over the decompressed lines; on `OSError` the `except` clause logs and
calls `sys.exit(1)`, so no mapping (not even a partial one) is returned and
the process terminates with exit code 1 (modelled as `Except.error 1`). -/
def parse_contents_file (s : GzStream) : Except Nat OwnerMap :=
  if s.readOk then Except.ok (process_lines [] s.lines)
  else Except.error 1

/-- Python `format(s, '30')`, the conversion applied by the f-string
`f"{pkg:30} {count}"` (line 123 of `package.py`): left-justify by padding
with spaces to a minimum field width; a string already at least that wide
is returned unchanged (a bare width never truncates). -/
def pyFormatLeft (s : List Char) (width : Nat) : List Char :=
  if s.length < width then s ++ List.replicate (width - s.length) ' ' else s

/-- The full stdout line `f"{pkg:30} {count}"` printed for one package
(line 123 of `package.py`). -/
def formatLine (pkg : List Char) (count : Nat) : List Char :=
  pyFormatLeft pkg 30 ++ ' ' :: (Nat.repr count).data

/-- Stable insertion of an item into a list sorted descending by count:
the item goes in front of the first entry whose count is not larger. -/
def insertDesc (x : List Char × Nat) : OwnerMap → OwnerMap
  | [] => [x]
  | y :: ys => if y.2 ≤ x.2 then x :: y :: ys else y :: insertDesc x ys

/-- `sorted(package_file_count.items(), key=itemgetter(1), reverse=True)`
(line 120 of `package.py`): the stable reordering of the insertion-ordered
items, descending by count.  Python's sort is stable, and a stable
reordering by a fixed key is unique, so this insertion sort computes the
same list as CPython's timsort. -/
def sortDescByCount (m : OwnerMap) : OwnerMap :=
  m.foldr insertDesc []

/-- Python list slice `l[:stop]` with a possibly negative `stop`
(`sorted_packages[:top_n]` on line 122 of `package.py`): a negative stop
counts from the end (clamped at 0), a non-negative stop is clamped at the
length. -/
def pySliceTo {α : Type} (l : List α) (stop : Int) : List α :=
  let stopIdx : Int := if stop < 0 then max ((l.length : Int) + stop) 0 else stop
  l.take stopIdx.toNat

/-- `print_top_packages` (lines 112-123 of `package.py`), returning the
list of stdout lines it prints. -/
def print_top_packages (m : OwnerMap) (top_n : Int) : List (List Char) :=
  (pySliceTo (sortDescByCount m) top_n).map fun p => formatLine p.1 p.2

/-- The module-level constant `DEBIAN_MIRROR` (line 14 of `package.py`),
the built-in fallback mirror base. -/
def DEBIAN_MIRROR : List Char :=
  "http://ftp.uk.debian.org/debian/dists/stable/main/".data

/-- The parsed command-line arguments (`parse_arguments`, lines 27-54 of
`package.py`). -/
structure Args where
  arch : List Char
  top : Int
  mirror : Option (List Char)

/-- `parse_arguments` (lines 27-54 of `package.py`): the `--mirror` flag
takes the command-line value when given, else its argparse default
`os.getenv("DEBIAN_MIRROR")` (the environment value, or none). -/
def parse_arguments (arch : List Char) (top : Int)
    (flagMirror envMirror : Option (List Char)) : Args :=
  { arch := arch, top := top, mirror := flagMirror.orElse fun _ => envMirror }

/-- The URL built by `download_contents_file`
(`f"{mirror_base}Contents-{arch}.gz"`, line 71 of `package.py`). -/
def download_url (arch mirror_base : List Char) : List Char :=
  mirror_base ++ "Contents-".data ++ arch ++ ".gz".data

/-- The URL that `main` (lines 126-138 of `package.py`) actually requests:
line 132 calls `download_contents_file(arch, DEBIAN_MIRROR)`, passing the
module constant, so `args.mirror` is never read. -/
def main_download_url (arch : List Char) (top : Int)
    (flagMirror envMirror : Option (List Char)) : List Char :=
  let args := parse_arguments arch top flagMirror envMirror
  download_url args.arch DEBIAN_MIRROR

/-! ### Lemmas about the counting map -/

theorem lookupCount_bump (m : OwnerMap) (k q : List Char) :
    lookupCount (bump m k) q
      = if k = q then lookupCount m q + 1 else lookupCount m q := by
  induction m with
  | nil => simp [bump, lookupCount]
  | cons p rest ih =>
      obtain ⟨k', v⟩ := p
      by_cases hkk : k' = k
      · subst hkk
        by_cases hq : k' = q
        · subst hq; simp [bump, lookupCount]
        · simp [bump, lookupCount, hq]
      · by_cases hq : k' = q
        · subst hq
          have : ¬ k = k' := fun h => hkk h.symm
          simp [bump, lookupCount, hkk, this]
        · simp [bump, lookupCount, hkk, hq, ih]

theorem lookupCount_foldl_bump (ks : List (List Char)) (m : OwnerMap) (q : List Char) :
    lookupCount (ks.foldl bump m) q = lookupCount m q + countOcc q ks := by
  induction ks generalizing m with
  | nil => simp [countOcc]
  | cons k ks ih =>
      simp only [List.foldl_cons, ih, lookupCount_bump, countOcc]
      by_cases hkq : k = q
      · simp only [if_pos hkq]; omega
      · simp [hkq]

theorem mem_bump_pos (m : OwnerMap) (k : List Char)
    (h : ∀ p ∈ m, 1 ≤ p.2) : ∀ p ∈ bump m k, 1 ≤ p.2 := by
  induction m with
  | nil => simp [bump]
  | cons x rest ih =>
      obtain ⟨k', v⟩ := x
      have hx : 1 ≤ v := h (k', v) (by simp)
      have hrest : ∀ p ∈ rest, 1 ≤ p.2 := fun p hp => h p (by simp [hp])
      intro p hp
      by_cases hkk : k' = k
      · simp only [bump, if_pos hkk, List.mem_cons] at hp
        rcases hp with rfl | hp
        · exact Nat.succ_le_succ (Nat.zero_le v)
        · exact hrest p hp
      · simp only [bump, if_neg hkk, List.mem_cons] at hp
        rcases hp with rfl | hp
        · exact hx
        · exact ih hrest p hp

theorem mem_foldl_bump_pos (ks : List (List Char)) (m : OwnerMap)
    (h : ∀ p ∈ m, 1 ≤ p.2) : ∀ p ∈ ks.foldl bump m, 1 ≤ p.2 := by
  induction ks generalizing m with
  | nil => exact h
  | cons k ks ih => exact ih (bump m k) (mem_bump_pos m k h)

theorem mem_process_line_pos (m : OwnerMap) (line : List Char)
    (h : ∀ p ∈ m, 1 ≤ p.2) : ∀ p ∈ process_line m line, 1 ≤ p.2 := by
  unfold process_line
  rcases hps : rsplitWs1 (pyStrip line) with _ | ⟨a, _ | ⟨b, _ | _⟩⟩
  · exact h
  · exact h
  · exact mem_foldl_bump_pos _ m h
  · exact h

/-! ### Lemmas about whitespace tokenization -/

theorem takeWhile_append_all {α : Type} (p : α → Bool) (xs ys : List α)
    (h : ∀ a ∈ xs, p a = true) :
    List.takeWhile p (xs ++ ys) = xs ++ List.takeWhile p ys := by
  induction xs with
  | nil => simp
  | cons x xs ih =>
      have hx : p x = true := h x (by simp)
      simp [List.takeWhile_cons, hx, ih (fun a ha => h a (by simp [ha]))]

theorem dropWhile_append_all {α : Type} (p : α → Bool) (xs ys : List α)
    (h : ∀ a ∈ xs, p a = true) :
    List.dropWhile p (xs ++ ys) = List.dropWhile p ys := by
  induction xs with
  | nil => simp
  | cons x xs ih =>
      have hx : p x = true := h x (by simp)
      simp [List.dropWhile_cons, hx, ih (fun a ha => h a (by simp [ha]))]

theorem takeWhile_cons_neg {α : Type} (p : α → Bool) (x : α) (xs : List α)
    (h : p x = false) : List.takeWhile p (x :: xs) = [] := by
  simp [List.takeWhile_cons, h]

theorem dropWhile_cons_neg {α : Type} (p : α → Bool) (x : α) (xs : List α)
    (h : p x = false) : List.dropWhile p (x :: xs) = x :: xs := by
  simp [List.dropWhile_cons, h]

theorem dropWhile_eq_cons_head (p : α → Bool) (l : List α) (x : α) (xs : List α)
    (h : List.dropWhile p l = x :: xs) : p x = false := by
  induction l with
  | nil => simp at h
  | cons a l ih =>
      rw [List.dropWhile_cons] at h
      by_cases ha : p a = true
      · rw [if_pos ha] at h; exact ih h
      · rw [if_neg ha] at h
        injection h with h1 _
        subst h1
        simpa using ha

/-- The central tokenization fact: on a well-formed line
`<path><whitespace><owners>` (path containing some non-whitespace, a
non-empty whitespace separator, a non-empty whitespace-free owners field),
`line.strip().rsplit(None, 1)` yields exactly the stripped path and the
owners field. -/
theorem rsplit_wellformed (path ws pstr : List Char)
    (hpath : path.dropWhile isSpace ≠ [])
    (hws : ws ≠ []) (hwsAll : ∀ c ∈ ws, isSpace c = true)
    (hp : pstr ≠ []) (hpAll : ∀ c ∈ pstr, isSpace c = false) :
    rsplitWs1 (pyStrip (path ++ ws ++ pstr)) = [pyStrip path, pstr] := by
  obtain ⟨c, cs, hrev⟩ : ∃ c cs, pstr.reverse = c :: cs := by
    cases hr : pstr.reverse with
    | nil => exact absurd (by simpa using hr) hp
    | cons c cs => exact ⟨c, cs, rfl⟩
  obtain ⟨d, ds, hwsrev⟩ : ∃ d ds, ws.reverse = d :: ds := by
    cases hr : ws.reverse with
    | nil => exact absurd (by simpa using hr) hws
    | cons d ds => exact ⟨d, ds, rfl⟩
  have hc : isSpace c = false := hpAll c (by rw [← List.mem_reverse, hrev]; simp)
  have hd : isSpace d = true := hwsAll d (by rw [← List.mem_reverse, hwsrev]; simp)
  obtain ⟨p0, P', hP⟩ : ∃ p0 P', path.dropWhile isSpace = p0 :: P' := by
    cases hr : path.dropWhile isSpace with
    | nil => exact absurd hr hpath
    | cons p0 P' => exact ⟨p0, P', rfl⟩
  have hp0 : isSpace p0 = false := dropWhile_eq_cons_head isSpace path p0 P' hP
  have hallp : ∀ a ∈ (c :: cs), (!isSpace a) = true := by
    rw [← hrev]
    intro a ha
    simp [hpAll a (List.mem_reverse.mp ha)]
  have hallws : ∀ a ∈ (d :: ds), isSpace a = true := by
    rw [← hwsrev]
    intro a ha
    exact hwsAll a (List.mem_reverse.mp ha)
  have hdropS : (path ++ ws ++ pstr).dropWhile isSpace = (p0 :: P') ++ (ws ++ pstr) := by
    rw [List.append_assoc, List.dropWhile_append, hP]
    simp
  have hrevS : ((p0 :: P') ++ (ws ++ pstr)).reverse
      = c :: (cs ++ (d :: (ds ++ (p0 :: P').reverse))) := by
    rw [List.reverse_append, List.reverse_append, hrev, hwsrev]
    simp [List.append_assoc]
  have hstrip : pyStrip (path ++ ws ++ pstr) = (p0 :: P') ++ (ws ++ pstr) := by
    unfold pyStrip
    rw [hdropS, hrevS, dropWhile_cons_neg _ _ _ hc, ← hrevS, List.reverse_reverse]
  have hr2 : ((p0 :: P') ++ (ws ++ pstr)).reverse.dropWhile isSpace
      = c :: (cs ++ (d :: (ds ++ (p0 :: P').reverse))) := by
    rw [hrevS]
    exact dropWhile_cons_neg _ _ _ hc
  have htok : List.takeWhile (fun x => !isSpace x) (c :: (cs ++ (d :: (ds ++ (p0 :: P').reverse))))
      = c :: cs := by
    have h1 : List.takeWhile (fun x => !isSpace x) ((c :: cs) ++ ((d :: ds) ++ (p0 :: P').reverse))
        = c :: cs := by
      rw [takeWhile_append_all _ _ _ hallp]
      simp only [List.cons_append]
      rw [takeWhile_cons_neg _ _ _ (by simp [hd])]
      simp
    simpa [List.append_assoc] using h1
  have hrest0 : List.dropWhile (fun x => !isSpace x) (c :: (cs ++ (d :: (ds ++ (p0 :: P').reverse))))
      = d :: (ds ++ (p0 :: P').reverse) := by
    have h1 : List.dropWhile (fun x => !isSpace x) ((c :: cs) ++ ((d :: ds) ++ (p0 :: P').reverse))
        = d :: (ds ++ (p0 :: P').reverse) := by
      rw [dropWhile_append_all _ _ _ hallp, List.cons_append,
        dropWhile_cons_neg _ _ _ (by simp [hd])]
    simpa [List.append_assoc] using h1
  have hrest : List.dropWhile isSpace (d :: (ds ++ (p0 :: P').reverse))
      = List.dropWhile isSpace (p0 :: P').reverse := by
    have h1 : List.dropWhile isSpace ((d :: ds) ++ (p0 :: P').reverse)
        = List.dropWhile isSpace (p0 :: P').reverse :=
      dropWhile_append_all _ _ _ hallws
    simpa [List.append_assoc] using h1
  have hrestne : List.dropWhile isSpace ((p0 :: P').reverse) ≠ [] := by
    intro h0
    rw [List.dropWhile_eq_nil_iff] at h0
    have := h0 p0 (by simp)
    simp [hp0] at this
  obtain ⟨e, es, hE⟩ : ∃ e es, List.dropWhile isSpace ((p0 :: P').reverse) = e :: es := by
    cases hr : List.dropWhile isSpace ((p0 :: P').reverse) with
    | nil => exact absurd hr hrestne
    | cons e es => exact ⟨e, es, rfl⟩
  rw [hstrip]
  unfold rsplitWs1
  simp only [hr2, htok, hrest0, hrest, hE, List.isEmpty_cons, Bool.false_eq_true, if_false]
  have h1 : (e :: es).reverse = pyStrip path := by
    unfold pyStrip
    rw [hP, hE]
  have h2 : (c :: cs).reverse = pstr := by
    rw [← hrev, List.reverse_reverse]
  rw [h1, h2]

/-- On a well-formed line the loop body reduces to bumping every
comma-separated owner of the owners field. -/
theorem process_line_wellformed (m : OwnerMap) (path ws pstr : List Char)
    (hpath : path.dropWhile isSpace ≠ [])
    (hws : ws ≠ []) (hwsAll : ∀ c ∈ ws, isSpace c = true)
    (hp : pstr ≠ []) (hpAll : ∀ c ∈ pstr, isSpace c = false) :
    process_line m (path ++ ws ++ pstr) = (splitComma pstr).foldl bump m := by
  unfold process_line
  rw [rsplit_wellformed path ws pstr hpath hws hwsAll hp hpAll]

/-- `rsplit(None, 1)` applied after `strip()` never produces an empty
part: when it returns two parts, both are non-empty. -/
theorem rsplitWs1_parts_nonempty (s a b : List Char)
    (h : rsplitWs1 s = [a, b]) : a ≠ [] ∧ b ≠ [] := by
  simp only [rsplitWs1] at h
  cases hr : s.reverse.dropWhile isSpace with
  | nil => rw [hr] at h; simp at h
  | cons e es =>
      rw [hr] at h
      simp only [List.isEmpty_cons, Bool.false_eq_true, if_false] at h
      have he : isSpace e = false := dropWhile_eq_cons_head _ _ _ _ hr
      by_cases hre : (((e :: es).dropWhile fun c => !isSpace c).dropWhile isSpace).isEmpty = true
      · rw [if_pos hre] at h
        simp at h
      · rw [if_neg hre] at h
        injection h with h1 h2
        injection h2 with h2 _
        constructor
        · rw [← h1]
          simp only [ne_eq, List.reverse_eq_nil_iff]
          intro h0
          rw [h0] at hre
          simp at hre
        · rw [← h2]
          have : List.takeWhile (fun c => !isSpace c) (e :: es)
              = e :: List.takeWhile (fun c => !isSpace c) es := by
            simp [List.takeWhile_cons, he]
          rw [this]
          simp

/-! ### Claim theorems: the aggregation loop -/

/-- C1: for every well-formed decompressed line
`<path><whitespace><p1,...,pk>`, processing the line increments the count
of every package name listed exactly once by exactly 1 (in particular a
package absent from the mapping, whose count reads as 0, ends at 1), and
leaves the count of every package not listed unchanged. -/
theorem c1_wellformed_line_counts (m : OwnerMap) (path ws pstr : List Char)
    (hpath : path.dropWhile isSpace ≠ [])
    (hws : ws ≠ []) (hwsAll : ∀ c ∈ ws, isSpace c = true)
    (hp : pstr ≠ []) (hpAll : ∀ c ∈ pstr, isSpace c = false) :
    (∀ q, countOcc q (splitComma pstr) = 1 →
        lookupCount (process_line m (path ++ ws ++ pstr)) q = lookupCount m q + 1)
    ∧ ∀ q, countOcc q (splitComma pstr) = 0 →
        lookupCount (process_line m (path ++ ws ++ pstr)) q = lookupCount m q := by
  have hpl := process_line_wellformed m path ws pstr hpath hws hwsAll hp hpAll
  constructor
  · intro q hq
    rw [hpl, lookupCount_foldl_bump, hq]
  · intro q hq
    rw [hpl, lookupCount_foldl_bump, hq, Nat.add_zero]

theorem c1_wellformed_line_counts_witness :
    ("p".data.dropWhile isSpace ≠ []
      ∧ countOcc "a".data (splitComma "a,b".data) = 1
      ∧ countOcc "z".data (splitComma "a,b".data) = 0
      ∧ lookupCount [("z".data, 4)] "a".data = 0)
    ∧ lookupCount (process_line [("z".data, 4)] ("p".data ++ " ".data ++ "a,b".data)) "a".data
        = lookupCount [("z".data, 4)] "a".data + 1
    ∧ lookupCount (process_line [("z".data, 4)] ("p".data ++ " ".data ++ "a,b".data)) "z".data
        = lookupCount [("z".data, 4)] "z".data :=
  ⟨by decide,
   (c1_wellformed_line_counts [("z".data, 4)] "p".data " ".data "a,b".data
      (by decide) (by decide) (by decide) (by decide) (by decide)).1 "a".data (by decide),
   (c1_wellformed_line_counts [("z".data, 4)] "p".data " ".data "a,b".data
      (by decide) (by decide) (by decide) (by decide) (by decide)).2 "z".data (by decide)⟩

/-- C2: every line whose strip-then-rsplit tokenization does not yield
exactly two non-empty parts (e.g. an empty line or a lone token) is
discarded silently: the mapping is returned unchanged (and the loop body
is a total function, so no error is raised). -/
theorem c2_malformed_line_discarded (m : OwnerMap) (line : List Char)
    (h : ∀ a b : List Char, rsplitWs1 (pyStrip line) = [a, b] → a = [] ∨ b = []) :
    process_line m line = m := by
  unfold process_line
  cases hps : rsplitWs1 (pyStrip line) with
  | nil => rfl
  | cons a rest =>
      cases rest with
      | nil => rfl
      | cons b rest2 =>
          cases rest2 with
          | nil =>
              obtain ⟨ha, hb⟩ := rsplitWs1_parts_nonempty _ a b hps
              rcases h a b hps with h0 | h0
              · exact absurd h0 ha
              · exact absurd h0 hb
          | cons x rest3 => rfl

theorem c2_malformed_line_discarded_witness :
    process_line [("x".data, 3)] "lone".data = [("x".data, 3)]
    ∧ process_line [("x".data, 3)] "".data = [("x".data, 3)] :=
  ⟨c2_malformed_line_discarded [("x".data, 3)] "lone".data
      (fun a b hab => by
        rw [(by decide : rsplitWs1 (pyStrip "lone".data) = ["lone".data])] at hab
        simp at hab),
   c2_malformed_line_discarded [("x".data, 3)] "".data
      (fun a b hab => by
        rw [(by decide : rsplitWs1 (pyStrip "".data) = [])] at hab
        simp at hab)⟩

/-- C3: the split into `(file_path, owners)` uses the last maximal run of
whitespace as the sole delimiter: for a path with no leading or trailing
whitespace (but possibly embedded whitespace), the path comes out intact
and only the final whitespace-delimited token is the owners field. -/
theorem c3_rsplit_last_whitespace_run (path ws pstr : List Char)
    (hne : path ≠ []) (hstrip : pyStrip path = path)
    (hws : ws ≠ []) (hwsAll : ∀ c ∈ ws, isSpace c = true)
    (hp : pstr ≠ []) (hpAll : ∀ c ∈ pstr, isSpace c = false) :
    rsplitWs1 (pyStrip (path ++ ws ++ pstr)) = [path, pstr] := by
  have hpath : path.dropWhile isSpace ≠ [] := by
    intro h0
    have hnil : pyStrip path = [] := by
      unfold pyStrip
      rw [h0]
      rfl
    rw [hstrip] at hnil
    exact hne hnil
  rw [rsplit_wellformed path ws pstr hpath hws hwsAll hp hpAll, hstrip]

theorem c3_rsplit_last_whitespace_run_witness :
    ("a b c".data ≠ [] ∧ pyStrip "a b c".data = "a b c".data)
    ∧ rsplitWs1 (pyStrip ("a b c".data ++ " ".data ++ "pkg".data))
        = ["a b c".data, "pkg".data] :=
  ⟨by decide,
   c3_rsplit_last_whitespace_run "a b c".data " ".data "pkg".data
      (by decide) (by decide) (by decide) (by decide) (by decide) (by decide)⟩

/-- C4: each occurrence of a package name in the owners field increments
that package's count separately, so on a well-formed line the count of any
package rises by exactly its number of occurrences in the comma-split
owners list (duplicates are not deduplicated). -/
theorem c4_duplicate_owners_count_separately (m : OwnerMap) (path ws pstr : List Char)
    (hpath : path.dropWhile isSpace ≠ [])
    (hws : ws ≠ []) (hwsAll : ∀ c ∈ ws, isSpace c = true)
    (hp : pstr ≠ []) (hpAll : ∀ c ∈ pstr, isSpace c = false)
    (q : List Char) :
    lookupCount (process_line m (path ++ ws ++ pstr)) q
      = lookupCount m q + countOcc q (splitComma pstr) := by
  rw [process_line_wellformed m path ws pstr hpath hws hwsAll hp hpAll,
    lookupCount_foldl_bump]

theorem c4_duplicate_owners_count_separately_witness :
    countOcc "a".data (splitComma "a,a".data) = 2
    ∧ lookupCount (process_line [("a".data, 5)] ("path".data ++ " ".data ++ "a,a".data)) "a".data
        = lookupCount [("a".data, 5)] "a".data + countOcc "a".data (splitComma "a,a".data) :=
  ⟨by decide,
   c4_duplicate_owners_count_separately [("a".data, 5)] "path".data " ".data "a,a".data
      (by decide) (by decide) (by decide) (by decide) (by decide) "a".data⟩

/-! ### Claim theorems: invariant, stream failure, determinism -/

/-- C9: every key present in the mapping at any point during or after
aggregation has a count of at least 1: starting from any mapping whose
entries are all strictly positive (the initial mapping is empty, so
vacuously so), processing any list of lines keeps every entry at least 1,
because keys are only ever created or changed by an increment. -/
theorem c9_counts_strictly_positive (m : OwnerMap) (ls : List (List Char))
    (h : ∀ p ∈ m, 1 ≤ p.2) : ∀ p ∈ process_lines m ls, 1 ≤ p.2 := by
  induction ls generalizing m with
  | nil => exact h
  | cons l ls ih => exact ih (process_line m l) (mem_process_line_pos m l h)

theorem c9_counts_strictly_positive_witness :
    (∀ p ∈ ([] : OwnerMap), 1 ≤ p.2)
    ∧ ("pkg".data, 1) ∈ process_lines [] ["path pkg".data]
    ∧ 1 ≤ (("pkg".data, 1) : List Char × Nat).2 :=
  ⟨by simp, by decide,
   c9_counts_strictly_positive [] ["path pkg".data] (by simp) ("pkg".data, 1) (by decide)⟩

/-- C7: when the stream read/decompression fails (corrupt gzip framing or
an I/O failure, raising `OSError`), the Aggregator returns no mapping at
all — not even a partial one — and the process exits with code 1. -/
theorem c7_decompression_failure_fatal (s : GzStream) (h : s.readOk = false) :
    parse_contents_file s = Except.error 1
    ∧ ∀ m : OwnerMap, parse_contents_file s ≠ Except.ok m := by
  unfold parse_contents_file
  rw [h]
  simp

theorem c7_decompression_failure_fatal_witness :
    (GzStream.mk ["x pkg".data] false).readOk = false
    ∧ parse_contents_file ⟨["x pkg".data], false⟩ = Except.error 1 :=
  ⟨rfl, (c7_decompression_failure_fatal ⟨["x pkg".data], false⟩ rfl).1⟩

/-- C8: parsing is deterministic in its input: running the Aggregator on
two byte-identical compressed streams produces identical mappings (the
embedded parser is a pure function of the stream). -/
theorem c8_parse_deterministic (s t : GzStream) (h : s = t) :
    parse_contents_file s = parse_contents_file t := by
  rw [h]

theorem c8_parse_deterministic_witness :
    (GzStream.mk ["p a".data] true) = GzStream.mk ["p a".data] true
    ∧ parse_contents_file ⟨["p a".data], true⟩ = parse_contents_file ⟨["p a".data], true⟩ :=
  ⟨rfl, c8_parse_deterministic ⟨["p a".data], true⟩ ⟨["p a".data], true⟩ rfl⟩

/-! ### Claim theorems: CLI and reporter -/

/-- C5 (code bug): `parse_arguments` does store the `--mirror` flag (with
the `DEBIAN_MIRROR` environment variable as its default), but `main`
passes the module constant `DEBIAN_MIRROR` to `download_contents_file`
and never reads `args.mirror`, so the requested URL is always built from
the built-in base, not from the flag or the environment. -/
theorem c5_mirror_flag_ignored :
    (parse_arguments "amd64".data 10 (some "http://example.com/".data) none).mirror
      = some "http://example.com/".data
    ∧ main_download_url "amd64".data 10 (some "http://example.com/".data) none
      = download_url "amd64".data DEBIAN_MIRROR
    ∧ main_download_url "amd64".data 10 (some "http://example.com/".data) none
      ≠ download_url "amd64".data "http://example.com/".data := by
  refine ⟨rfl, rfl, ?_⟩
  decide

/-- C6 counterexample: a 31-character package name is not truncated to 30
columns — the printed line keeps the full name, so it differs from the
claimed `<name truncated to 30><space><count>` format. -/
theorem c6_no_truncation_counterexample :
    formatLine (List.replicate 31 'a') 7
      ≠ (List.replicate 31 'a').take 30 ++ ' ' :: (Nat.repr 7).data := by
  decide

/-- C6 (amended): each reported line is the package name left-justified
and space-padded to a minimum of 30 columns — a name longer than 30
characters is printed in full, not truncated — followed by a single space
and the decimal count. -/
theorem c6_line_format_amended (pkg : List Char) (c : Nat) :
    (pkg.length ≤ 30 →
      formatLine pkg c
          = (pkg ++ List.replicate (30 - pkg.length) ' ') ++ ' ' :: (Nat.repr c).data
        ∧ (pkg ++ List.replicate (30 - pkg.length) ' ').length = 30)
    ∧ (30 < pkg.length → formatLine pkg c = pkg ++ ' ' :: (Nat.repr c).data) := by
  constructor
  · intro h
    constructor
    · unfold formatLine pyFormatLeft
      by_cases h30 : pkg.length < 30
      · rw [if_pos h30]
      · have h30' : pkg.length = 30 := by omega
        rw [if_neg h30]
        simp [h30']
    · simp only [List.length_append, List.length_replicate]
      omega
  · intro h
    unfold formatLine pyFormatLeft
    rw [if_neg (by omega)]

theorem c6_line_format_amended_witness :
    ("vim".data.length ≤ 30)
    ∧ formatLine "vim".data 33
        = ("vim".data ++ List.replicate (30 - "vim".data.length) ' ') ++ ' ' :: (Nat.repr 33).data :=
  ⟨by decide, ((c6_line_format_amended "vim".data 33).1 (by decide)).1⟩

/-- C10: a negative top-N is used as a Python slice bound, so the reporter
prints all packages except the last |N| entries of the descending-by-count
order, and prints nothing exactly when |N| is at least the number of
packages (it neither rejects the value nor prints N entries). -/
theorem c10_negative_topn_slice (m : OwnerMap) (n : Int) (h : n < 0) :
    print_top_packages m n
      = ((sortDescByCount m).take ((sortDescByCount m).length - (-n).toNat)).map
          (fun p => formatLine p.1 p.2)
    ∧ (print_top_packages m n = [] ↔ (sortDescByCount m).length ≤ (-n).toNat) := by
  have hslice : pySliceTo (sortDescByCount m) n
      = (sortDescByCount m).take ((sortDescByCount m).length - (-n).toNat) := by
    simp only [pySliceTo]
    rw [if_pos h]
    congr 1
    omega
  constructor
  · unfold print_top_packages
    rw [hslice]
  · unfold print_top_packages
    rw [hslice, List.map_eq_nil_iff, List.take_eq_nil_iff]
    constructor
    · rintro (h0 | h0)
      · omega
      · rw [h0]
        simp
    · intro h0
      left
      omega

theorem c10_negative_topn_slice_witness :
    ((-1 : Int) < 0)
    ∧ print_top_packages [("a".data, 5), ("b".data, 3), ("c".data, 9)] (-1)
        = ((sortDescByCount [("a".data, 5), ("b".data, 3), ("c".data, 9)]).take
            ((sortDescByCount [("a".data, 5), ("b".data, 3), ("c".data, 9)]).length
              - ((-(-1 : Int)).toNat))).map (fun p => formatLine p.1 p.2) :=
  ⟨by decide, (c10_negative_topn_slice [("a".data, 5), ("b".data, 3), ("c".data, 9)] (-1)
      (by decide)).1⟩
